import Mathlib

/-!
Verification of the `singleflightx` call-deduplication library.

The development shallowly embeds the library:

* The sharding layer (`NewShardedGroup`, `WithShardCount`, `WithHashFn`,
  `ShardedGroup.shardIndex`, and the delegating `Do`/`DoChan`/`Forget`)
  is translated directly from the Go source (`options.go` and the sharded
  group file).
* The per-key coordinator (the upstream `golang.org/x/sync/singleflight`
  group that the typed `Group[T, V]` wraps) is not part of the repository
  source tree; it is modelled from the specification as an explicit state
  machine (`Group`, `stepG`, `runG`) driven by interleaved events, one
  atomic step per lock-protected state transition.
* The type-narrowing boundary of the generic wrapper (`result.(V)` with
  the comma-ok form) is modelled over a small closed universe of dynamic
  values (`GoAny`).

Machine integers (`uint64`) are modelled as `Nat` with explicit reduction
modulo `2 ^ 64` where overflow matters.
-/

namespace Singleflightx

/-! ### Association lists

The upstream group keeps a `map[string]*call`; we model Go maps as
association lists where insertion prepends (a later binding shadows an
earlier one, matching map overwrite), lookup takes the first binding, and
deletion removes every binding for the key. -/

def lookupA {α β : Type} [DecidableEq α] (k : α) : List (α × β) → Option β
  | [] => none
  | (k', v) :: rest => if k = k' then some v else lookupA k rest

def insertA {α β : Type} (k : α) (v : β) (l : List (α × β)) : List (α × β) :=
  (k, v) :: l

def eraseA {α β : Type} [DecidableEq α] (k : α) : List (α × β) → List (α × β)
  | [] => []
  | (k', v) :: rest => if k' = k then eraseA k rest else (k', v) :: eraseA k rest

def updateA {α β : Type} [DecidableEq α] (k : α) (f : β → β) :
    List (α × β) → List (α × β)
  | [] => []
  | (k', v) :: rest =>
    if k' = k then (k', f v) :: updateA k f rest else (k', v) :: updateA k f rest

theorem lookupA_insertA_self {α β : Type} [DecidableEq α] (k : α) (v : β)
    (l : List (α × β)) : lookupA k (insertA k v l) = some v := by
  simp [lookupA, insertA]

theorem lookupA_insertA_ne {α β : Type} [DecidableEq α] {k k' : α} (v : β)
    (l : List (α × β)) (h : k ≠ k') : lookupA k (insertA k' v l) = lookupA k l := by
  simp [lookupA, insertA, h]

theorem eraseA_of_lookupA_none {α β : Type} [DecidableEq α] {k : α}
    {l : List (α × β)} (h : lookupA k l = none) : eraseA k l = l := by
  induction l with
  | nil => rfl
  | cons p rest ih =>
    obtain ⟨k', v⟩ := p
    by_cases hk : k = k'
    · simp [lookupA, hk] at h
    · simp only [lookupA, if_neg hk] at h
      have hk2 : ¬k' = k := fun hkk => hk hkk.symm
      simp [eraseA, hk2, ih h]

theorem lookupA_eraseA_ne {α β : Type} [DecidableEq α] {k k' : α}
    (l : List (α × β)) (h : k ≠ k') : lookupA k (eraseA k' l) = lookupA k l := by
  induction l with
  | nil => rfl
  | cons p rest ih =>
    obtain ⟨k₀, v⟩ := p
    by_cases hk : k₀ = k'
    · subst hk
      simp [eraseA, lookupA, h, ih]
    · by_cases hk2 : k = k₀ <;> simp [eraseA, lookupA, hk, hk2, ih]

theorem lookupA_updateA_self {α β : Type} [DecidableEq α] (k : α) (f : β → β)
    (l : List (α × β)) : lookupA k (updateA k f l) = (lookupA k l).map f := by
  induction l with
  | nil => rfl
  | cons p rest ih =>
    obtain ⟨k₀, v⟩ := p
    by_cases hk : k₀ = k
    · subst hk
      simp [updateA, lookupA]
    · have hk' : k ≠ k₀ := fun h => hk h.symm
      simp [updateA, lookupA, hk, hk', ih]

theorem lookupA_updateA_ne {α β : Type} [DecidableEq α] {k k' : α} (f : β → β)
    (l : List (α × β)) (h : k ≠ k') : lookupA k (updateA k' f l) = lookupA k l := by
  induction l with
  | nil => rfl
  | cons p rest ih =>
    obtain ⟨k₀, v⟩ := p
    by_cases hk : k₀ = k'
    · subst hk
      simp [updateA, lookupA, h, ih]
    · by_cases hk2 : k = k₀ <;> simp [updateA, lookupA, hk, hk2, ih]

/-! ### Key bytes and the default hash

The sharded group hashes `[]byte(key)`, the UTF-8 bytes of the key string,
with `fnv.New64a()` (64-bit FNV-1a) by default. -/

def charUtf8 (c : Char) : List Nat :=
  let n := c.toNat
  if n < 128 then [n]
  else if n < 2048 then
    [192 ||| (n >>> 6), 128 ||| (n &&& 63)]
  else if n < 65536 then
    [224 ||| (n >>> 12), 128 ||| ((n >>> 6) &&& 63), 128 ||| (n &&& 63)]
  else
    [240 ||| (n >>> 18), 128 ||| ((n >>> 12) &&& 63),
     128 ||| ((n >>> 6) &&& 63), 128 ||| (n &&& 63)]

def keyBytes (s : String) : List Nat :=
  s.data.foldr (fun c acc => charUtf8 c ++ acc) []

def fnvOffsetBasis : Nat := 14695981039346656037

def fnvPrime : Nat := 1099511628211

def fnv1aStep (h b : Nat) : Nat := ((h ^^^ b) * fnvPrime) % (2 ^ 64)

/-- The 64-bit FNV-1a digest of a byte sequence: `fnv.New64a()` written the
bytes, then `Sum64()`. -/
def fnv1a64 (bytes : List Nat) : Nat := bytes.foldl fnv1aStep fnvOffsetBasis

/-- The package's `newHash` default: a hash function is modelled by the map
from the written key bytes to the final `Sum64()` value. -/
def newHash : List Nat → Nat := fnv1a64

/-! ### Shard configuration (options.go) -/

def DefaultShardCount : Nat := 2

structure ShardConfig where
  hashFn : List Nat → Nat
  shardCount : Nat

/-- A functional option mutates the config struct; modelled as an
endofunction on `ShardConfig`. -/
def ShardConfigOption : Type := ShardConfig → ShardConfig

def WithShardCount (shardCount : Nat) : ShardConfigOption :=
  fun config => { config with shardCount := shardCount }

def WithHashFn (hashFn : List Nat → Nat) : ShardConfigOption :=
  fun config => { config with hashFn := hashFn }

/-! ### Results, calls, and the coordinator state machine -/

/-- Mirrors the source type `Result[V]` with fields `Val`, `Err`, `Shared`.
Go's nullable `error` is modelled as `Option E`. -/
structure Result (V E : Type) where
  val : V
  err : Option E
  shared : Bool
  deriving DecidableEq, Repr

/-- Modelled from the spec: one in-progress or just-completed execution of
the work function for a key (the upstream coordinator's `call`, which is not
part of this repository's source). The work function is pure data: the
`(value, error)` pair it returns when executed. `creator` is the caller whose
invocation created the call; `joiners` are the callers that attached later. -/
structure Call (V E : Type) where
  key : String
  creator : Nat
  fn : V × Option E
  joiners : List Nat
  done : Bool
  deriving DecidableEq, Repr

/-- Models the buffered result channel `make(chan Result[V], 1)` returned by
`DoChan`: a capacity and the list of results ever published to it. -/
structure Chan (V E : Type) where
  capacity : Nat
  buf : List (Result V E)
  deriving DecidableEq, Repr

/-- Mirrors `ch := make(chan Result[V], 1)` in `Group.DoChan`. -/
def mkResultChan (V E : Type) : Chan V E := { capacity := 1, buf := [] }

/-- Modelled from the spec: the observable state of one `Group[T, V]`
together with its upstream coordinator (which is not part of this
repository's source). `m` is the key-to-live-call mapping, `tbl` the table
of all calls ever created, `execs` counts work-function executions started,
`delivered` logs every result handed to a caller, and `chans` holds the
per-caller channels created by `DoChan`. -/
structure Group (V E : Type) where
  m : List (String × Nat)
  tbl : List (Nat × Call V E)
  nextId : Nat
  execs : Nat
  delivered : List (Nat × Result V E)
  chans : List (Nat × Chan V E)
  deriving DecidableEq, Repr

def emptyGroup (V E : Type) : Group V E :=
  { m := [], tbl := [], nextId := 0, execs := 0, delivered := [], chans := [] }

variable {V E : Type}

/-- Every caller attached to a call: its creator followed by its joiners. -/
def waiters (c : Call V E) : List Nat := c.creator :: c.joiners

/-- Modelled from the spec (§4.1/§4.2): the lock-protected entry transition
of `Do`/`DoChan` for caller `cid`. If a live call exists for the key the
caller attaches to it (its own `fn` is discarded); otherwise the caller
creates a fresh call and starts executing `fn` (counted in `execs`). When
`isChan` is true the caller first allocates its buffered result channel,
mirroring `Group.DoChan`. -/
def doInvoke (g : Group V E) (cid : Nat) (key : String) (fn : V × Option E)
    (isChan : Bool) : Group V E :=
  let g1 := if isChan then
    { g with chans := insertA cid (mkResultChan V E) g.chans } else g
  match lookupA key g1.m with
  | some callId =>
    { g1 with
      tbl := updateA callId (fun c => { c with joiners := c.joiners ++ [cid] }) g1.tbl }
  | none =>
    let callId := g1.nextId
    { g1 with
      m := insertA key callId g1.m
      tbl := insertA callId
        { key := key, creator := cid, fn := fn, joiners := [], done := false } g1.tbl
      nextId := callId + 1
      execs := g1.execs + 1 }

/-- Delivery helper for the channel path: a channel belonging to one of the
completed call's recipients receives that recipient's result. -/
def pushChan (recips : List (Nat × Result V E)) (entry : Nat × Chan V E) :
    Nat × Chan V E :=
  match lookupA entry.1 recips with
  | some r => (entry.1, { entry.2 with buf := entry.2.buf ++ [r] })
  | none => entry

/-- The results a completing call hands out, one per attached caller: the
recorded value and error verbatim for everyone; `shared` is true for every
joiner, and true for the creator exactly when at least one other caller
attached. -/
def completionRecips (c : Call V E) : List (Nat × Result V E) :=
  (c.creator, { val := c.fn.1, err := c.fn.2, shared := !c.joiners.isEmpty })
    :: c.joiners.map (fun j => (j, { val := c.fn.1, err := c.fn.2, shared := true }))

/-- Modelled from the spec (§4.1): completion of call `callId`. The executor
records the work function's value and error, removes the call from the
mapping (unless the mapping now holds a different, newer call for the key,
as after `Forget`), marks it done, and delivers the recorded result verbatim
to every attached caller. -/
def doComplete (g : Group V E) (callId : Nat) : Group V E :=
  match lookupA callId g.tbl with
  | none => g
  | some c =>
    if c.done then g
    else
      { m := match lookupA c.key g.m with
             | some id => if id = callId then eraseA c.key g.m else g.m
             | none => g.m
        tbl := updateA callId (fun c0 => { c0 with done := true }) g.tbl
        nextId := g.nextId
        execs := g.execs
        delivered := g.delivered ++ completionRecips c
        chans := g.chans.map (pushChan (completionRecips c)) }

/-- Mirrors `Group.Forget` (delegating to the upstream `Forget`, modelled
from the spec §4.3): the live call for the key, if any, is removed from the
mapping; callers already attached are unaffected. -/
def doForget (g : Group V E) (key : String) : Group V E :=
  { g with m := eraseA key g.m }

/-- One atomic coordinator transition of an interleaved execution. -/
inductive Event (V E : Type) where
  | invoke (cid : Nat) (key : String) (fn : V × Option E)
  | invokeChan (cid : Nat) (key : String) (fn : V × Option E)
  | complete (callId : Nat)
  | forget (key : String)
  deriving DecidableEq, Repr

def stepG (g : Group V E) : Event V E → Group V E
  | .invoke cid key fn => doInvoke g cid key fn false
  | .invokeChan cid key fn => doInvoke g cid key fn true
  | .complete callId => doComplete g callId
  | .forget key => doForget g key

def runG (g : Group V E) (evs : List (Event V E)) : Group V E :=
  evs.foldl stepG g

/-- The entry event of a caller described by `(cid, isChan)`: a `DoChan`
invocation when `isChan` is true, a `Do` invocation otherwise. -/
def mkInvokeEvent (key : String) (fn : V × Option E) (p : Nat × Bool) : Event V E :=
  if p.2 then .invokeChan p.1 key fn else .invoke p.1 key fn

/-! ### The sharded group (translated from the sharded group source file) -/

structure ShardedGroup (V E : Type) where
  hashFn : List Nat → Nat
  shards : List (Group V E)
  shardCount : Nat

/-- The option-application loop of `NewShardedGroup`: start from the
defaults (`newHash`, `DefaultShardCount`) and apply the options in order. -/
def applyOpts (opts : List ShardConfigOption) : ShardConfig :=
  opts.foldl (fun config opt => opt config)
    { hashFn := newHash, shardCount := DefaultShardCount }

/-- The silent floor of `NewShardedGroup`: `if config.shardCount < 2 \x7b
config.shardCount = 2 \x7d`. -/
def clampCount (n : Nat) : Nat := if n < 2 then 2 else n

/-- Mirrors `NewShardedGroup`: apply the options to the default config,
silently raise a shard count below 2 to 2, and allocate that many zero-value
groups. -/
def NewShardedGroup (V E : Type) (opts : List ShardConfigOption) : ShardedGroup V E :=
  { hashFn := (applyOpts opts).hashFn
    shardCount := clampCount (applyOpts opts).shardCount
    shards := List.replicate (clampCount (applyOpts opts).shardCount) (emptyGroup V E) }

/-- Mirrors `ShardedGroup.shardIndex`: hash the key's UTF-8 bytes and reduce
modulo the shard count. -/
def ShardedGroup.shardIndex (sg : ShardedGroup V E) (key : String) : Nat :=
  sg.hashFn (keyBytes key) % sg.shardCount

/-- Mirrors `ShardedGroup.Do`: delegate the invocation to the shard selected
by `shardIndex`. -/
def ShardedGroup.Do (sg : ShardedGroup V E) (cid : Nat) (key : String)
    (fn : V × Option E) : ShardedGroup V E :=
  { sg with
    shards := sg.shards.set (sg.shardIndex key)
      (doInvoke (sg.shards.getD (sg.shardIndex key) (emptyGroup V E)) cid key fn false) }

/-- Mirrors `ShardedGroup.DoChan`: delegate the invocation to the shard
selected by `shardIndex`. -/
def ShardedGroup.DoChan (sg : ShardedGroup V E) (cid : Nat) (key : String)
    (fn : V × Option E) : ShardedGroup V E :=
  { sg with
    shards := sg.shards.set (sg.shardIndex key)
      (doInvoke (sg.shards.getD (sg.shardIndex key) (emptyGroup V E)) cid key fn true) }

/-- Mirrors `ShardedGroup.Forget`: delegate to the shard selected by
`shardIndex`. -/
def ShardedGroup.Forget (sg : ShardedGroup V E) (key : String) : ShardedGroup V E :=
  { sg with
    shards := sg.shards.set (sg.shardIndex key)
      (doForget (sg.shards.getD (sg.shardIndex key) (emptyGroup V E)) key) }

/-! ### The generic type-narrowing boundary

The wrapper stores the work function's `V` in the upstream coordinator as a
Go `any` and narrows it back with the comma-ok assertion `result.(V)`,
ignoring the ok flag (`singleflight.go`, `Group.Do` and `Group.toResult`).
We model dynamic values over a small closed universe. -/

inductive GoAny where
  | goInt (n : Int)
  | goStr (s : String)
  deriving DecidableEq, Repr

/-- The comma-ok assertion `a.(int)`: succeeds exactly when the dynamic
value holds an `int`. -/
def narrowInt : GoAny → Option Int
  | .goInt n => some n
  | .goStr _ => none

/-- Mirrors the tail of `Group.Do` for `V = int`: `var v V; if result != nil
\x7b v, _ = result.(V) \x7d; return v` — a failed narrowing leaves `v` at
the zero value and is otherwise ignored. -/
def doVal (result : Option GoAny) : Int :=
  match result with
  | none => 0
  | some a => (narrowInt a).getD 0

/-- Mirrors the upstream `singleflight.Result` consumed by `Group.toResult`:
an untyped `Val`, an error, and the shared flag. -/
structure UpstreamResult where
  val : Option GoAny
  err : Option String
  shared : Bool
  deriving DecidableEq, Repr

/-- Mirrors `Group.toResult` for `V = int`: copy `Err` and `Shared`, narrow
`Val` with the comma-ok assertion, leaving the zero value on failure. -/
def toResult (r : UpstreamResult) : Result Int String :=
  { val := doVal r.val, err := r.err, shared := r.shared }

/-! ### Further association-list and list lemmas -/

theorem lookupA_eraseA_self {α β : Type} [DecidableEq α] (k : α) (l : List (α × β)) :
    lookupA k (eraseA k l) = none := by
  induction l with
  | nil => rfl
  | cons p rest ih =>
    obtain ⟨k₀, v⟩ := p
    by_cases hk : k₀ = k
    · simp [eraseA, hk, ih]
    · have hk' : ¬k = k₀ := fun h => hk h.symm
      simp [eraseA, lookupA, hk, hk', ih]

theorem lookupA_updateA_of_none {α β : Type} [DecidableEq α] {k k' : α} (f : β → β)
    (l : List (α × β)) (h : lookupA k l = none) :
    lookupA k (updateA k' f l) = none := by
  by_cases hk : k = k'
  · subst hk
    rw [lookupA_updateA_self, h]
    rfl
  · rw [lookupA_updateA_ne f l hk, h]

theorem lookupA_map_const {α β : Type} [DecidableEq α] (c : α) (r : β) (xs : List α) :
    lookupA c (xs.map (fun j => (j, r))) = if c ∈ xs then some r else none := by
  induction xs with
  | nil => rfl
  | cons x xs ih =>
    by_cases hx : c = x
    · simp [lookupA, hx]
    · simp [lookupA, hx, ih]

theorem getD_set_self {γ : Type} (l : List γ) (i : Nat) (a d : γ) (h : i < l.length) :
    (l.set i a).getD i d = a := by
  induction l generalizing i with
  | nil => simp at h
  | cons x xs ih =>
    cases i with
    | zero => rfl
    | succ n => simpa using ih n (by simpa using h)

theorem getD_set_ne {γ : Type} (l : List γ) (i j : Nat) (a d : γ) (h : j ≠ i) :
    (l.set i a).getD j d = l.getD j d := by
  induction l generalizing i j with
  | nil => rfl
  | cons x xs ih =>
    cases i with
    | zero =>
      cases j with
      | zero => exact absurd rfl h
      | succ n => rfl
    | succ n =>
      cases j with
      | zero => rfl
      | succ j' => simpa using ih n j' (fun hj => h (by rw [hj]))

/-! ### Unfolding lemmas for the coordinator transitions -/

theorem doInvoke_create (g : Group V E) (cid : Nat) (key : String)
    (fn : V × Option E) (b : Bool) (h : lookupA key g.m = none) :
    doInvoke g cid key fn b =
      { m := insertA key g.nextId g.m
        tbl := insertA g.nextId
          { key := key, creator := cid, fn := fn, joiners := [], done := false } g.tbl
        nextId := g.nextId + 1
        execs := g.execs + 1
        delivered := g.delivered
        chans := if b then insertA cid (mkResultChan V E) g.chans else g.chans } := by
  cases b <;> simp [doInvoke, h]

theorem doInvoke_join (g : Group V E) (cid : Nat) (key : String)
    (fn : V × Option E) (b : Bool) {i : Nat} (h : lookupA key g.m = some i) :
    doInvoke g cid key fn b =
      { g with
        tbl := updateA i (fun c => { c with joiners := c.joiners ++ [cid] }) g.tbl
        chans := if b then insertA cid (mkResultChan V E) g.chans else g.chans } := by
  cases b <;> simp [doInvoke, h]

theorem stepG_mkInvokeEvent (g : Group V E) (key : String) (fn : V × Option E)
    (p : Nat × Bool) : stepG g (mkInvokeEvent key fn p) = doInvoke g p.1 key fn p.2 := by
  cases hp : p.2 <;> simp [mkInvokeEvent, hp, stepG]

/-! ### Claim theorems: sharding layer -/

/-- Claim C6: requesting a shard count of 0 or 1 yields an effective count of
2; a requested count of at least 2 is used unchanged; with no options the
count is the default 2. -/
theorem shardCount_floor (V E : Type) :
    (NewShardedGroup V E [WithShardCount 0]).shardCount = 2 ∧
    (NewShardedGroup V E [WithShardCount 1]).shardCount = 2 ∧
    (∀ n : Nat, 2 ≤ n → (NewShardedGroup V E [WithShardCount n]).shardCount = n) ∧
    (NewShardedGroup V E []).shardCount = 2 := by
  refine ⟨rfl, rfl, ?_, rfl⟩
  intro n hn
  show clampCount (applyOpts [WithShardCount n]).shardCount = n
  have h : (applyOpts [WithShardCount n]).shardCount = n := rfl
  rw [h, clampCount, if_neg (by omega)]

/-- Witness for C6 at the concrete requested count 5. -/
theorem shardCount_floor_witness :
    (NewShardedGroup Nat String [WithShardCount 5]).shardCount = 5 :=
  (shardCount_floor Nat String).2.2.1 5 (by omega)

/-- Claim C10: every constructed sharded group has shard count at least 2,
the shard count equals the length of the shard slice, and every key's shard
index is in bounds — so the modulo never divides by zero and every
delegation indexes the slice in bounds. -/
theorem sharded_in_bounds (V E : Type) (opts : List ShardConfigOption) (key : String) :
    2 ≤ (NewShardedGroup V E opts).shardCount ∧
    (NewShardedGroup V E opts).shardCount = (NewShardedGroup V E opts).shards.length ∧
    (NewShardedGroup V E opts).shardIndex key < (NewShardedGroup V E opts).shards.length := by
  have h2 : 2 ≤ (NewShardedGroup V E opts).shardCount := by
    show 2 ≤ clampCount (applyOpts opts).shardCount
    rw [clampCount]
    split <;> omega
  have hlen : (NewShardedGroup V E opts).shardCount
      = (NewShardedGroup V E opts).shards.length := by
    simp [NewShardedGroup]
  refine ⟨h2, hlen, ?_⟩
  rw [← hlen]
  exact Nat.mod_lt _ (by omega)

/-- Claim C5: the shard index is the 64-bit hash of the key's bytes modulo
the shard count; it is unchanged by `Do`, `DoChan` and `Forget` on the same
instance (so repeated calls with the same key always route identically); and
distinct keys may share a shard (witnessed by `"a"` and `"c"` under the
default configuration). -/
theorem shardIndex_deterministic :
    (∀ (V E : Type) (sg : ShardedGroup V E) (key : String),
        sg.shardIndex key = sg.hashFn (keyBytes key) % sg.shardCount) ∧
    (∀ (V E : Type) (sg : ShardedGroup V E) (key key₂ : String) (cid : Nat)
        (fn : V × Option E),
        (sg.Do cid key₂ fn).shardIndex key = sg.shardIndex key ∧
        (sg.DoChan cid key₂ fn).shardIndex key = sg.shardIndex key ∧
        (sg.Forget key₂).shardIndex key = sg.shardIndex key) ∧
    ("a" ≠ "c" ∧
      (NewShardedGroup Nat String []).shardIndex "a"
        = (NewShardedGroup Nat String []).shardIndex "c") := by
  refine ⟨fun V E sg key => rfl, fun V E sg key key₂ cid fn => ⟨rfl, rfl, rfl⟩, ?_, ?_⟩
  · decide
  · decide

/-- Claim C8: `ShardedGroup.Do`, `DoChan` and `Forget` act exactly as the
corresponding group operation on the shard at `shardIndex key`, leave every
other shard untouched, and leave the routing configuration (hash function,
shard count, slice length) unchanged — the sharding layer is routing only. -/
theorem sharded_delegates (V E : Type) (sg : ShardedGroup V E) (cid : Nat)
    (key : String) (fn : V × Option E)
    (hlen : sg.shardCount = sg.shards.length) (hpos : 0 < sg.shardCount) :
    ((sg.Do cid key fn).shards.getD (sg.shardIndex key) (emptyGroup V E)
        = doInvoke (sg.shards.getD (sg.shardIndex key) (emptyGroup V E)) cid key fn false ∧
      (sg.DoChan cid key fn).shards.getD (sg.shardIndex key) (emptyGroup V E)
        = doInvoke (sg.shards.getD (sg.shardIndex key) (emptyGroup V E)) cid key fn true ∧
      (sg.Forget key).shards.getD (sg.shardIndex key) (emptyGroup V E)
        = doForget (sg.shards.getD (sg.shardIndex key) (emptyGroup V E)) key) ∧
    (∀ j, j ≠ sg.shardIndex key →
      (sg.Do cid key fn).shards.getD j (emptyGroup V E) = sg.shards.getD j (emptyGroup V E) ∧
      (sg.DoChan cid key fn).shards.getD j (emptyGroup V E) = sg.shards.getD j (emptyGroup V E) ∧
      (sg.Forget key).shards.getD j (emptyGroup V E) = sg.shards.getD j (emptyGroup V E)) ∧
    ((sg.Do cid key fn).hashFn = sg.hashFn ∧
      (sg.Do cid key fn).shardCount = sg.shardCount ∧
      (sg.Do cid key fn).shards.length = sg.shards.length ∧
      (sg.DoChan cid key fn).hashFn = sg.hashFn ∧
      (sg.DoChan cid key fn).shardCount = sg.shardCount ∧
      (sg.DoChan cid key fn).shards.length = sg.shards.length ∧
      (sg.Forget key).hashFn = sg.hashFn ∧
      (sg.Forget key).shardCount = sg.shardCount ∧
      (sg.Forget key).shards.length = sg.shards.length) := by
  have hidx : sg.shardIndex key < sg.shards.length := by
    rw [← hlen]
    exact Nat.mod_lt _ hpos
  refine ⟨⟨?_, ?_, ?_⟩, fun j hj => ⟨?_, ?_, ?_⟩, ?_⟩
  · exact getD_set_self _ _ _ _ hidx
  · exact getD_set_self _ _ _ _ hidx
  · exact getD_set_self _ _ _ _ hidx
  · exact getD_set_ne _ _ _ _ _ hj
  · exact getD_set_ne _ _ _ _ _ hj
  · exact getD_set_ne _ _ _ _ _ hj
  · exact ⟨rfl, rfl, by simp [ShardedGroup.Do], rfl, rfl,
      by simp [ShardedGroup.DoChan], rfl, rfl, by simp [ShardedGroup.Forget]⟩

/-- Witness for C8 at a concrete two-shard instance. -/
theorem sharded_delegates_witness :
    ((NewShardedGroup Nat String []).Do 0 "a" (1, none)).shards.getD
        ((NewShardedGroup Nat String []).shardIndex "a") (emptyGroup Nat String)
      = doInvoke ((NewShardedGroup Nat String []).shards.getD
          ((NewShardedGroup Nat String []).shardIndex "a") (emptyGroup Nat String))
          0 "a" (1, none) false := by
  have h := sharded_delegates Nat String (NewShardedGroup Nat String []) 0 "a" (1, none)
    (by rfl) (by decide)
  exact h.1.1

/-! ### Claim theorems: type-narrowing boundary -/

/-- Claim C9 counterexample: a recorded dynamic value that cannot be
narrowed to the caller's type makes the wrapper silently return the zero
value of that type with no error and no fault — the comma-ok assertion
discards the mismatch instead of treating it as a programming error. -/
theorem narrow_silent_zero :
    narrowInt (GoAny.goStr "boom") = none ∧
    doVal (some (GoAny.goStr "boom")) = 0 ∧
    toResult { val := some (GoAny.goStr "boom"), err := none, shared := false }
      = { val := 0, err := none, shared := false } :=
  ⟨rfl, rfl, rfl⟩

/-- Claim C9 (amended): a non-narrowable recorded value is silently replaced
by the zero value; however, every value the typed group itself records comes
from a work function of the caller's type, for which narrowing always
succeeds, so no zero value ever masks a mismatch on the typed path. -/
theorem narrow_typed_path_exact :
    (∀ (v : Int) (e : Option String) (s : Bool),
        doVal (some (GoAny.goInt v)) = v ∧
        toResult { val := some (GoAny.goInt v), err := e, shared := s }
          = { val := v, err := e, shared := s }) ∧
    (∀ a : GoAny, narrowInt a = none → doVal (some a) = 0) := by
  constructor
  · intro v e s
    exact ⟨rfl, rfl⟩
  · intro a h
    simp [doVal, h]

/-- Witness for the amended C9 at concrete values. -/
theorem narrow_typed_path_exact_witness :
    doVal (some (GoAny.goInt 42)) = 42 ∧ doVal (some (GoAny.goStr "w")) = 0 :=
  ⟨(narrow_typed_path_exact.1 42 none false).1,
   narrow_typed_path_exact.2 (GoAny.goStr "w") rfl⟩

/-! ### Claim theorems: solitary erroring call -/

/-- Claim C4: a solitary `Do` (no concurrent caller for the key) whose work
function returns an error delivers exactly that error, together with
`shared = false`, to its caller. -/
theorem do_solitary_error (g : Group V E) (cid : Nat) (k : String) (v : V) (e : E)
    (h : lookupA k g.m = none) :
    (runG g [.invoke cid k (v, some e), .complete g.nextId]).delivered
      = g.delivered ++ [(cid, { val := v, err := some e, shared := false })] := by
  show (doComplete (doInvoke g cid k (v, some e) false) g.nextId).delivered = _
  rw [doInvoke_create g cid k (v, some e) false h]
  simp [doComplete, lookupA_insertA_self, completionRecips]

/-! ### Run decomposition and the join phase -/

theorem runG_nil (g : Group V E) : runG g [] = g := rfl

theorem runG_cons (g : Group V E) (e : Event V E) (evs : List (Event V E)) :
    runG g (e :: evs) = runG (stepG g e) evs := rfl

theorem doComplete_execs (g : Group V E) (i : Nat) :
    (doComplete g i).execs = g.execs := by
  unfold doComplete
  split
  · rfl
  · split <;> rfl

theorem runG_append (g : Group V E) (evs₁ evs₂ : List (Event V E)) :
    runG g (evs₁ ++ evs₂) = runG (runG g evs₁) evs₂ :=
  List.foldl_append stepG g evs₁ evs₂

theorem eraseA_insertA_self {α β : Type} [DecidableEq α] (k : α) (v : β)
    (l : List (α × β)) : eraseA k (insertA k v l) = eraseA k l := by
  simp [eraseA, insertA]

/-- Unfolding lemma: completion of a live, not-yet-done call. -/
theorem doComplete_live (g : Group V E) {i : Nat} {c : Call V E}
    (h : lookupA i g.tbl = some c) (hd : c.done = false) :
    doComplete g i =
      { m := match lookupA c.key g.m with
             | some id => if id = i then eraseA c.key g.m else g.m
             | none => g.m
        tbl := updateA i (fun c0 => { c0 with done := true }) g.tbl
        nextId := g.nextId
        execs := g.execs
        delivered := g.delivered ++ completionRecips c
        chans := g.chans.map (pushChan (completionRecips c)) } := by
  simp [doComplete, h, hd]

/-- While a live call for `k` is in the mapping, any further invocation for
`k` (blocking or channel-based, any work function) only attaches the caller
as a joiner: the mapping entry, the call identity, the execution count, the
delivery log and the allocation counter are all unchanged. -/
theorem runG_join_phase (k : String) (fn : V × Option E) (i : Nat)
    (rest : List (Nat × Bool)) :
    ∀ (g : Group V E) (call : Call V E),
    lookupA k g.m = some i →
    lookupA i g.tbl = some call →
    lookupA k (runG g (rest.map (mkInvokeEvent k fn))).m = some i ∧
    lookupA i (runG g (rest.map (mkInvokeEvent k fn))).tbl
      = some { call with joiners := call.joiners ++ rest.map Prod.fst } ∧
    (runG g (rest.map (mkInvokeEvent k fn))).execs = g.execs ∧
    (runG g (rest.map (mkInvokeEvent k fn))).delivered = g.delivered ∧
    (runG g (rest.map (mkInvokeEvent k fn))).nextId = g.nextId := by
  induction rest with
  | nil =>
    intro g call hm ht
    refine ⟨hm, ?_, rfl, rfl, rfl⟩
    simpa using ht
  | cons p rest ih =>
    intro g call hm ht
    obtain ⟨c, b⟩ := p
    rw [List.map_cons, runG_cons, stepG_mkInvokeEvent, doInvoke_join g c k fn b hm]
    set g1 : Group V E :=
      { g with
        tbl := updateA i (fun c0 => { c0 with joiners := c0.joiners ++ [c] }) g.tbl
        chans := if b then insertA c (mkResultChan V E) g.chans else g.chans } with hg1
    have hm1 : lookupA k g1.m = some i := hm
    have ht1 : lookupA i g1.tbl = some { call with joiners := call.joiners ++ [c] } := by
      show lookupA i (updateA i _ g.tbl) = _
      rw [lookupA_updateA_self, ht]
      rfl
    have h := ih g1 { call with joiners := call.joiners ++ [c] } hm1 ht1
    simpa [List.append_assoc] using h

/-! ### Claim theorems: exactly-once execution -/

/-- Claim C1: when one or more callers invoke `Do` and/or `DoChan` for the
same key while no call for that key is live, the work function executes
exactly once (`execs` grows by one), and every one of the callers receives
the value and error of that single execution. -/
theorem dedup_exactly_once (g : Group V E) (k : String) (fn : V × Option E)
    (c0 : Nat × Bool) (rest : List (Nat × Bool))
    (h1 : lookupA k g.m = none) :
    (runG g (((c0 :: rest).map (mkInvokeEvent k fn)) ++ [.complete g.nextId])).execs
        = g.execs + 1 ∧
    ∀ p ∈ c0 :: rest, ∃ r : Result V E,
      (p.1, r) ∈ (runG g (((c0 :: rest).map (mkInvokeEvent k fn))
          ++ [.complete g.nextId])).delivered
        ∧ r.val = fn.1 ∧ r.err = fn.2 := by
  have hsingle : ∀ x : Group V E,
      runG x [Event.complete g.nextId] = doComplete x g.nextId := fun x => rfl
  rw [runG_append, hsingle, List.map_cons, runG_cons, stepG_mkInvokeEvent,
    doInvoke_create g c0.1 k fn c0.2 h1]
  set gC : Group V E :=
    { m := insertA k g.nextId g.m
      tbl := insertA g.nextId
        { key := k, creator := c0.1, fn := fn, joiners := [], done := false } g.tbl
      nextId := g.nextId + 1
      execs := g.execs + 1
      delivered := g.delivered
      chans := if c0.2 then insertA c0.1 (mkResultChan V E) g.chans else g.chans } with hgC
  have hmC : lookupA k gC.m = some g.nextId := lookupA_insertA_self k g.nextId g.m
  have htC : lookupA g.nextId gC.tbl
      = some { key := k, creator := c0.1, fn := fn, joiners := [], done := false } :=
    lookupA_insertA_self _ _ _
  obtain ⟨hm2, ht2, hex2, hdel2, _⟩ := runG_join_phase k fn g.nextId rest gC _ hmC htC
  set g2 := runG gC (rest.map (mkInvokeEvent k fn)) with hg2
  have hdone : ({ key := k, creator := c0.1, fn := fn, joiners := [], done := false } :
      Call V E).done = false := rfl
  rw [doComplete_live g2 ht2 hdone]
  constructor
  · simpa using hex2
  · intro p hp
    rcases List.mem_cons.mp hp with hp0 | hpr
    · refine ⟨⟨fn.1, fn.2, !List.isEmpty (rest.map Prod.fst)⟩, ?_, rfl, rfl⟩
      subst hp0
      simp [completionRecips, hdel2]
    · refine ⟨{ val := fn.1, err := fn.2, shared := true }, ?_, rfl, rfl⟩
      have hmem : p.1 ∈ rest.map Prod.fst := List.mem_map_of_mem Prod.fst hpr
      simp only [completionRecips, hdel2, List.mem_append, List.mem_cons]
      right
      right
      simp only [List.mem_map]
      exact ⟨p.1, by simpa using hmem, rfl⟩

/-- Witness for C1: two callers (one `Do`, one `DoChan`) on a fresh group. -/
theorem dedup_exactly_once_witness :
    (runG (emptyGroup Nat String)
        ((([(0, false), (1, true)] : List (Nat × Bool)).map (mkInvokeEvent "k" (42, none)))
          ++ [.complete (emptyGroup Nat String).nextId])).execs
        = (emptyGroup Nat String).execs + 1 ∧
    ∀ p ∈ ([(0, false), (1, true)] : List (Nat × Bool)), ∃ r : Result Nat String,
      (p.1, r) ∈ (runG (emptyGroup Nat String)
          ((([(0, false), (1, true)] : List (Nat × Bool)).map (mkInvokeEvent "k" (42, none)))
            ++ [.complete (emptyGroup Nat String).nextId])).delivered
        ∧ r.val = 42 ∧ r.err = none :=
  dedup_exactly_once (emptyGroup Nat String) "k" (42, none) (0, false) [(1, true)] rfl

/-! ### Claim theorems: forget independence -/

/-- Unfolding lemma: a solitary create immediately followed by completion of
the created call. -/
theorem create_complete (g : Group V E) (cid : Nat) (k : String)
    (fn : V × Option E) (b : Bool) (h : lookupA k g.m = none) :
    doComplete (doInvoke g cid k fn b) g.nextId =
      { m := eraseA k g.m
        tbl := updateA g.nextId (fun c0 => { c0 with done := true })
          (insertA g.nextId
            { key := k, creator := cid, fn := fn, joiners := [], done := false } g.tbl)
        nextId := g.nextId + 1
        execs := g.execs + 1
        delivered := g.delivered
          ++ [(cid, { val := fn.1, err := fn.2, shared := false })]
        chans := ((if b then insertA cid (mkResultChan V E) g.chans else g.chans).map
          (pushChan [(cid, { val := fn.1, err := fn.2, shared := false })])) } := by
  rw [doInvoke_create g cid k fn b h]
  set gC : Group V E :=
    { m := insertA k g.nextId g.m
      tbl := insertA g.nextId
        { key := k, creator := cid, fn := fn, joiners := [], done := false } g.tbl
      nextId := g.nextId + 1
      execs := g.execs + 1
      delivered := g.delivered
      chans := if b then insertA cid (mkResultChan V E) g.chans else g.chans } with hgC
  have htC : lookupA g.nextId gC.tbl
      = some { key := k, creator := cid, fn := fn, joiners := [], done := false } :=
    lookupA_insertA_self _ _ _
  rw [doComplete_live gC htC rfl]
  simp [completionRecips, lookupA_insertA_self, eraseA_insertA_self]

/-- Core of the forget-independence argument: from a state holding a live,
not-yet-done call `call1` that is no longer in the mapping for `k`, a fresh
invocation for `k` creates a second execution; completing the new call and
then the old one delivers each work function's own result to its own caller,
the old call completing normally for its waiters. -/
theorem forget_core (g' : Group V E) (b : Nat) (mb : Bool) (k : String)
    (f₂ : V × Option E) (prevId nid : Nat) (call1 : Call V E)
    (hnid : g'.nextId = nid)
    (hm : lookupA k g'.m = none)
    (ht : lookupA prevId g'.tbl = some call1)
    (hne : prevId ≠ nid)
    (hd : call1.done = false) :
    (doComplete (doComplete (doInvoke g' b k f₂ mb) nid) prevId).execs
        = g'.execs + 1 ∧
    (doComplete (doComplete (doInvoke g' b k f₂ mb) nid) prevId).delivered
        = g'.delivered ++ [(b, { val := f₂.1, err := f₂.2, shared := false })]
            ++ completionRecips call1 := by
  subst hnid
  rw [create_complete g' b k f₂ mb hm]
  set G4 : Group V E :=
    { m := eraseA k g'.m
      tbl := updateA g'.nextId (fun c0 => { c0 with done := true })
        (insertA g'.nextId
          { key := k, creator := b, fn := f₂, joiners := [], done := false } g'.tbl)
      nextId := g'.nextId + 1
      execs := g'.execs + 1
      delivered := g'.delivered
        ++ [(b, { val := f₂.1, err := f₂.2, shared := false })]
      chans := ((if mb then insertA b (mkResultChan V E) g'.chans else g'.chans).map
        (pushChan [(b, { val := f₂.1, err := f₂.2, shared := false })])) } with hG4
  have ht4 : lookupA prevId G4.tbl = some call1 := by
    show lookupA prevId (updateA g'.nextId _ (insertA g'.nextId _ g'.tbl)) = some call1
    rw [lookupA_updateA_ne _ _ hne, lookupA_insertA_ne _ _ hne, ht]
  rw [doComplete_live G4 ht4 hd]
  exact ⟨rfl, rfl⟩

/-- Claim C2: after `Forget(key)` returns, a new `Do`/`DoChan` for the key
starts a brand-new independent execution even though the forgotten call is
still running (two executions in total, each caller receiving its own work
function's result); the caller attached to the forgotten call still observes
its completion normally; and `Forget` on a key with no live call leaves the
group state entirely unchanged. -/
theorem forget_independence (g : Group V E) (k : String) (f₁ f₂ : V × Option E)
    (a b : Nat) (ma mb : Bool) (h1 : lookupA k g.m = none) :
    ((runG g [mkInvokeEvent k f₁ (a, ma), .forget k, mkInvokeEvent k f₂ (b, mb),
        .complete (g.nextId + 1), .complete g.nextId]).execs = g.execs + 2 ∧
      (runG g [mkInvokeEvent k f₁ (a, ma), .forget k, mkInvokeEvent k f₂ (b, mb),
        .complete (g.nextId + 1), .complete g.nextId]).delivered
        = g.delivered
          ++ [(b, { val := f₂.1, err := f₂.2, shared := false }),
              (a, { val := f₁.1, err := f₁.2, shared := false })]) ∧
    (∀ (g₀ : Group V E) (k₀ : String), lookupA k₀ g₀.m = none → doForget g₀ k₀ = g₀) := by
  constructor
  · have hrun : runG g [mkInvokeEvent k f₁ (a, ma), .forget k, mkInvokeEvent k f₂ (b, mb),
        .complete (g.nextId + 1), .complete g.nextId]
        = doComplete (doComplete (doInvoke (doForget (doInvoke g a k f₁ ma) k) b k f₂ mb)
            (g.nextId + 1)) g.nextId := by
      simp only [runG_cons, runG_nil, stepG_mkInvokeEvent]
      simp only [stepG]
    rw [hrun, doInvoke_create g a k f₁ ma h1]
    have e2 : doForget
        ({ m := insertA k g.nextId g.m
           tbl := insertA g.nextId
             { key := k, creator := a, fn := f₁, joiners := [], done := false } g.tbl
           nextId := g.nextId + 1
           execs := g.execs + 1
           delivered := g.delivered
           chans := if ma then insertA a (mkResultChan V E) g.chans else g.chans } :
          Group V E) k
        = { m := eraseA k g.m
            tbl := insertA g.nextId
              { key := k, creator := a, fn := f₁, joiners := [], done := false } g.tbl
            nextId := g.nextId + 1
            execs := g.execs + 1
            delivered := g.delivered
            chans := if ma then insertA a (mkResultChan V E) g.chans else g.chans } := by
      simp [doForget, eraseA_insertA_self]
    rw [e2]
    have hcore := forget_core
      ({ m := eraseA k g.m
         tbl := insertA g.nextId
           { key := k, creator := a, fn := f₁, joiners := [], done := false } g.tbl
         nextId := g.nextId + 1
         execs := g.execs + 1
         delivered := g.delivered
         chans := if ma then insertA a (mkResultChan V E) g.chans else g.chans } :
        Group V E) b mb k f₂ g.nextId (g.nextId + 1)
      { key := k, creator := a, fn := f₁, joiners := [], done := false }
      rfl (lookupA_eraseA_self k g.m) (lookupA_insertA_self _ _ _)
      (Nat.ne_of_lt (Nat.lt_succ_self _)) rfl
    refine ⟨?_, ?_⟩
    · rw [hcore.1]
    · rw [hcore.2]
      simp [completionRecips]
  · intro g₀ k₀ h₀
    simp [doForget, eraseA_of_lookupA_none h₀]

/-- Witness for C2: a fresh group, caller 10 starts, `Forget`, caller 11
starts anew; two executions, each caller its own result. -/
theorem forget_independence_witness :
    ((runG (emptyGroup Nat String) [mkInvokeEvent "k" (1, none) (10, false), .forget "k",
        mkInvokeEvent "k" (2, none) (11, true),
        .complete ((emptyGroup Nat String).nextId + 1),
        .complete (emptyGroup Nat String).nextId]).execs
          = (emptyGroup Nat String).execs + 2 ∧
      (runG (emptyGroup Nat String) [mkInvokeEvent "k" (1, none) (10, false), .forget "k",
        mkInvokeEvent "k" (2, none) (11, true),
        .complete ((emptyGroup Nat String).nextId + 1),
        .complete (emptyGroup Nat String).nextId]).delivered
          = (emptyGroup Nat String).delivered
            ++ [(11, { val := 2, err := none, shared := false }),
                (10, { val := 1, err := none, shared := false })]) ∧
    (∀ (g₀ : Group Nat String) (k₀ : String),
        lookupA k₀ g₀.m = none → doForget g₀ k₀ = g₀) :=
  forget_independence (emptyGroup Nat String) "k" (1, none) (2, none) 10 11 false true rfl

/-! ### Claim theorems: value and error fidelity -/

/-- Claim C3: when a call completes, every caller attached to it (creator
and joiners alike) receives exactly the value and exactly the error its work
function returned — and nothing else is delivered: every new log entry is
addressed to an attached caller and carries exactly that value and error,
never wrapped, re-derived, or swallowed. -/
theorem delivery_fidelity (g : Group V E) (i : Nat) (call : Call V E)
    (h : lookupA i g.tbl = some call) (hd : call.done = false) :
    (∀ x ∈ waiters call, ∃ r : Result V E,
        (x, r) ∈ (doComplete g i).delivered ∧ r.val = call.fn.1 ∧ r.err = call.fn.2) ∧
    (∀ p ∈ (doComplete g i).delivered,
        p ∈ g.delivered
          ∨ (p.1 ∈ waiters call ∧ p.2.val = call.fn.1 ∧ p.2.err = call.fn.2)) := by
  rw [doComplete_live g h hd]
  dsimp only
  constructor
  · intro x hx
    rcases List.mem_cons.mp hx with hx0 | hxj
    · refine ⟨⟨call.fn.1, call.fn.2, !call.joiners.isEmpty⟩, ?_, rfl, rfl⟩
      subst hx0
      simp [completionRecips]
    · refine ⟨⟨call.fn.1, call.fn.2, true⟩, ?_, rfl, rfl⟩
      simp only [completionRecips, List.mem_append, List.mem_cons]
      right
      right
      simp only [List.mem_map]
      exact ⟨x, hxj, rfl⟩
  · intro p hp
    rcases List.mem_append.mp hp with hold | hnew
    · exact Or.inl hold
    · right
      rcases List.mem_cons.mp hnew with h0 | hj
      · rw [h0]
        exact ⟨List.mem_cons_self _ _, rfl, rfl⟩
      · rcases List.mem_map.mp hj with ⟨j, hjmem, hje⟩
        rw [← hje]
        exact ⟨List.mem_cons_of_mem _ hjmem, rfl, rfl⟩

/-- A concrete group with one live call (creator 3, joiner 4) for the C3
witness. -/
def sampleGroup : Group Nat String :=
  { m := [("k", 0)]
    tbl := [(0, { key := "k", creator := 3, fn := (9, none), joiners := [4], done := false })]
    nextId := 1
    execs := 1
    delivered := []
    chans := [] }

/-- Witness for C3 on `sampleGroup`. -/
theorem delivery_fidelity_witness :
    (∀ x ∈ waiters
        ({ key := "k", creator := 3, fn := (9, none), joiners := [4], done := false } :
          Call Nat String),
        ∃ r : Result Nat String, (x, r) ∈ (doComplete sampleGroup 0).delivered
          ∧ r.val = 9 ∧ r.err = none) ∧
    (∀ p ∈ (doComplete sampleGroup 0).delivered,
        p ∈ sampleGroup.delivered
          ∨ (p.1 ∈ waiters
              ({ key := "k", creator := 3, fn := (9, none), joiners := [4], done := false } :
                Call Nat String)
            ∧ p.2.val = 9 ∧ p.2.err = none)) :=
  delivery_fidelity sampleGroup 0
    { key := "k", creator := 3, fn := (9, none), joiners := [4], done := false } rfl rfl

/-- Witness for C4: a fresh group, one caller, an always-failing work
function. -/
theorem do_solitary_error_witness :
    (runG (emptyGroup Nat String)
        [.invoke 0 "k" (7, some "boom"), .complete (emptyGroup Nat String).nextId]).delivered
      = [(0, { val := 7, err := some "boom", shared := false })] := by
  have h := do_solitary_error (emptyGroup Nat String) 0 "k" 7 "boom" rfl
  simpa [emptyGroup] using h

/-! ### The channel invariant for `DoChan` -/

/-- The caller id an event is invoked by, if it is an invocation. -/
def eventCid : Event V E → Option Nat
  | .invoke cid _ _ => some cid
  | .invokeChan cid _ _ => some cid
  | .complete _ => none
  | .forget _ => none

theorem lookupA_map_pushChan (recips : List (Nat × Result V E))
    (l : List (Nat × Chan V E)) (c : Nat) :
    lookupA c (l.map (pushChan recips))
      = (lookupA c l).map (fun ch =>
          match lookupA c recips with
          | some r => { ch with buf := ch.buf ++ [r] }
          | none => ch) := by
  induction l with
  | nil => rfl
  | cons p rest ih =>
    obtain ⟨k0, ch0⟩ := p
    by_cases hk : c = k0
    · subst hk
      cases hrec : lookupA c recips with
      | some r0 => simp [pushChan, lookupA, hrec]
      | none => simp [pushChan, lookupA, hrec]
    · cases hrec : lookupA k0 recips with
      | some r0 => simp [pushChan, lookupA, hrec, hk, ih]
      | none => simp [pushChan, lookupA, hrec, hk, ih]

theorem lookupA_completionRecips_mem (c : Nat) (call : Call V E)
    (hw : c ∈ waiters call) :
    ∃ r : Result V E, lookupA c (completionRecips call) = some r
      ∧ r.val = call.fn.1 ∧ r.err = call.fn.2 := by
  by_cases h0 : c = call.creator
  · subst h0
    refine ⟨⟨call.fn.1, call.fn.2, !call.joiners.isEmpty⟩, ?_, rfl, rfl⟩
    simp [completionRecips, lookupA]
  · simp only [waiters, List.mem_cons] at hw
    rcases hw with h0' | hj
    · exact absurd h0' h0
    · refine ⟨⟨call.fn.1, call.fn.2, true⟩, ?_, rfl, rfl⟩
      simp only [completionRecips, lookupA, if_neg h0]
      rw [lookupA_map_const]
      simp [hj]

theorem lookupA_completionRecips_none (c : Nat) (call : Call V E)
    (hw : c ∉ waiters call) :
    lookupA c (completionRecips call) = none := by
  simp only [waiters, List.mem_cons, not_or] at hw
  obtain ⟨h0, hj⟩ := hw
  simp only [completionRecips, lookupA, if_neg h0]
  rw [lookupA_map_const]
  simp [hj]

/-- The invariant maintained for a `DoChan` caller `c` with work function
`fn`: its call exists (uniquely, among calls whose waiters include `c`) and
is tracked by the allocation counter; its channel exists with capacity 1;
the channel buffer is empty before the call completes and holds exactly one
result afterwards; and everything in the buffer is the recorded value and
error of `fn`. -/
def chanInv (c : Nat) (fn : V × Option E) (g : Group V E) : Prop :=
  (∀ j, g.nextId ≤ j → lookupA j g.tbl = none) ∧
  ∃ i call ch,
    i < g.nextId ∧
    lookupA i g.tbl = some call ∧
    c ∈ waiters call ∧
    call.fn = fn ∧
    (∀ j call', lookupA j g.tbl = some call' → c ∈ waiters call' → j = i) ∧
    lookupA c g.chans = some ch ∧
    ch.capacity = 1 ∧
    (call.done = true → ch.buf.length = 1) ∧
    (call.done = false → ch.buf = []) ∧
    (∀ r ∈ ch.buf, r.val = fn.1 ∧ r.err = fn.2)

theorem lookupA_chans_invoke (c cid : Nat) (b : Bool)
    (l : List (Nat × Chan V E)) (hcid : cid ≠ c) :
    lookupA c (if b then insertA cid (mkResultChan V E) l else l) = lookupA c l := by
  cases b with
  | false => rfl
  | true => exact lookupA_insertA_ne _ _ (fun h => hcid h.symm)

theorem chanInv_doInvoke (c : Nat) (fn : V × Option E) (g : Group V E)
    (cid : Nat) (key : String) (fn' : V × Option E) (b : Bool)
    (hcid : cid ≠ c) (hinv : chanInv c fn g) :
    chanInv c fn (doInvoke g cid key fn' b) := by
  obtain ⟨hfresh, i, call, ch, hi, ht, hw, hfn, huniq, hch, hcap, hd1, hd0, hbuf⟩ := hinv
  cases hm : lookupA key g.m with
  | some j =>
    rw [doInvoke_join g cid key fn' b hm]
    refine ⟨?_, ?_⟩
    · intro j' hj'
      exact lookupA_updateA_of_none _ _ (hfresh j' hj')
    · by_cases hji : i = j
      · subst hji
        refine ⟨i, { call with joiners := call.joiners ++ [cid] }, ch, hi, ?_, ?_, hfn,
          ?_, ?_, hcap, hd1, hd0, hbuf⟩
        · show lookupA i (updateA i _ g.tbl) = _
          rw [lookupA_updateA_self, ht]
          rfl
        · simp only [waiters, List.mem_cons] at hw ⊢
          rcases hw with h0 | hj
          · exact Or.inl h0
          · exact Or.inr (List.mem_append_left _ hj)
        · intro j' call' hlook hwc
          by_cases hj'i : j' = i
          · exact hj'i
          · rw [lookupA_updateA_ne _ _ hj'i] at hlook
            exact huniq j' call' hlook hwc
        · exact (lookupA_chans_invoke c cid b g.chans hcid).trans hch
      · refine ⟨i, call, ch, hi, ?_, hw, hfn, ?_, ?_, hcap, hd1, hd0, hbuf⟩
        · show lookupA i (updateA j _ g.tbl) = _
          rw [lookupA_updateA_ne _ _ hji, ht]
        · intro j' call' hlook hwc
          by_cases hj'j : j' = j
          · rw [hj'j, lookupA_updateA_self] at hlook
            cases hjl : lookupA j g.tbl with
            | none =>
              rw [hjl] at hlook
              exact absurd hlook (by simp)
            | some c0 =>
              rw [hjl] at hlook
              simp only [Option.map_some'] at hlook
              have hc' : call' = { c0 with joiners := c0.joiners ++ [cid] } :=
                (Option.some.inj hlook).symm
              subst hc'
              have hw0 : c ∈ waiters c0 := by
                simp only [waiters, List.mem_cons] at hwc ⊢
                rcases hwc with h0 | hj2
                · exact Or.inl h0
                · rcases List.mem_append.mp hj2 with hj3 | hc1
                  · exact Or.inr hj3
                  · exact absurd (List.mem_singleton.mp hc1).symm hcid
              exact absurd (huniq j c0 hjl hw0).symm hji
          · rw [lookupA_updateA_ne _ _ hj'j] at hlook
            exact huniq j' call' hlook hwc
        · exact (lookupA_chans_invoke c cid b g.chans hcid).trans hch
  | none =>
    rw [doInvoke_create g cid key fn' b hm]
    refine ⟨?_, i, call, ch, ?_, ?_, hw, hfn, ?_, ?_, hcap, hd1, hd0, hbuf⟩
    · intro j hj
      have hj1 : g.nextId + 1 ≤ j := hj
      have h2 : lookupA j g.tbl = none := hfresh j (by omega)
      show lookupA j (insertA g.nextId (Call.mk key cid fn' [] false) g.tbl) = none
      rw [lookupA_insertA_ne _ _ (by omega : j ≠ g.nextId), h2]
    · show i < g.nextId + 1
      omega
    · show lookupA i (insertA g.nextId (Call.mk key cid fn' [] false) g.tbl) = some call
      rw [lookupA_insertA_ne _ _ (by omega : i ≠ g.nextId), ht]
    · intro j' call' hlook hwc
      by_cases hj' : j' = g.nextId
      · rw [hj'] at hlook
        have hlook2 : lookupA g.nextId
            (insertA g.nextId (Call.mk key cid fn' [] false) g.tbl)
            = some (Call.mk key cid fn' [] false) := lookupA_insertA_self _ _ _
        have hc' : call' = Call.mk key cid fn' [] false :=
          (Option.some.inj (hlook2.symm.trans hlook)).symm
        subst hc'
        simp only [waiters, List.mem_cons, List.not_mem_nil, or_false] at hwc
        exact absurd hwc.symm hcid
      · have hlook2 : lookupA j' (insertA g.nextId (Call.mk key cid fn' [] false) g.tbl)
            = lookupA j' g.tbl := lookupA_insertA_ne _ _ hj'
        rw [hlook2] at hlook
        exact huniq j' call' hlook hwc
    · exact (lookupA_chans_invoke c cid b g.chans hcid).trans hch

theorem chanInv_doComplete (c : Nat) (fn : V × Option E) (g : Group V E)
    (callId : Nat) (hinv : chanInv c fn g) :
    chanInv c fn (doComplete g callId) := by
  obtain ⟨hfresh, i, call, ch, hi, ht, hw, hfn, huniq, hch, hcap, hd1, hd0, hbuf⟩ := hinv
  cases hlk : lookupA callId g.tbl with
  | none =>
    have hid : doComplete g callId = g := by simp [doComplete, hlk]
    rw [hid]
    exact ⟨hfresh, i, call, ch, hi, ht, hw, hfn, huniq, hch, hcap, hd1, hd0, hbuf⟩
  | some c0 =>
    by_cases hd : c0.done = true
    · have hid : doComplete g callId = g := by simp [doComplete, hlk, hd]
      rw [hid]
      exact ⟨hfresh, i, call, ch, hi, ht, hw, hfn, huniq, hch, hcap, hd1, hd0, hbuf⟩
    · have hd' : c0.done = false := by
        cases hb : c0.done
        · rfl
        · exact absurd hb hd
      rw [doComplete_live g hlk hd']
      refine ⟨?_, ?_⟩
      · intro j hj
        exact lookupA_updateA_of_none _ _ (hfresh j hj)
      · by_cases hci : callId = i
        · subst hci
          have hc0 : call = c0 := Option.some.inj (ht.symm.trans hlk)
          subst hc0
          have hbufe : ch.buf = [] := hd0 hd'
          obtain ⟨r, hrec, hrv, hre⟩ := lookupA_completionRecips_mem c call hw
          refine ⟨callId, { call with done := true }, { ch with buf := [r] },
            hi, ?_, hw, hfn, ?_, ?_, hcap, ?_, ?_, ?_⟩
          · show lookupA callId (updateA callId _ g.tbl) = _
            rw [lookupA_updateA_self, hlk]
            rfl
          · intro j' call' hlook hwc
            by_cases hj' : j' = callId
            · exact hj'
            · rw [show lookupA j' (updateA callId (fun c1 => { c1 with done := true })
                  g.tbl) = lookupA j' g.tbl from lookupA_updateA_ne _ _ hj'] at hlook
              exact huniq j' call' hlook hwc
          · rw [lookupA_map_pushChan, hch]
            simp [Option.map_some', hrec, hbufe]
          · intro _
            rfl
          · intro hfalse
            exact absurd hfalse (by simp)
          · intro r' hr'
            have : r' = r := List.mem_singleton.mp hr'
            subst this
            rw [← hfn]
            exact ⟨hrv, hre⟩
        · have hcnot : c ∉ waiters c0 := fun hcw => hci (huniq callId c0 hlk hcw)
          have hrecn : lookupA c (completionRecips c0) = none :=
            lookupA_completionRecips_none c c0 hcnot
          refine ⟨i, call, ch, hi, ?_, hw, hfn, ?_, ?_, hcap, hd1, hd0, hbuf⟩
          · show lookupA i (updateA callId _ g.tbl) = _
            rw [lookupA_updateA_ne _ _ (fun h => hci h.symm), ht]
          · intro j' call' hlook hwc
            by_cases hj' : j' = callId
            · subst hj'
              rw [show lookupA j' (updateA j' (fun c1 => { c1 with done := true }) g.tbl)
                  = (lookupA j' g.tbl).map _ from lookupA_updateA_self _ _ _, hlk] at hlook
              have hc' : call' = { c0 with done := true } := (Option.some.inj hlook).symm
              subst hc'
              have hwc0 : c ∈ waiters c0 := by
                simpa [waiters] using hwc
              exact absurd hwc0 hcnot
            · rw [show lookupA j' (updateA callId (fun c1 => { c1 with done := true })
                  g.tbl) = lookupA j' g.tbl from lookupA_updateA_ne _ _ hj'] at hlook
              exact huniq j' call' hlook hwc
          · rw [lookupA_map_pushChan, hch]
            simp [Option.map_some', hrecn]

theorem chanInv_step (c : Nat) (fn : V × Option E) (g : Group V E) (e : Event V E)
    (hc : eventCid e ≠ some c) (hinv : chanInv c fn g) : chanInv c fn (stepG g e) := by
  cases e with
  | invoke cid key fn' =>
    exact chanInv_doInvoke c fn g cid key fn' false
      (fun h => hc (by rw [eventCid, h])) hinv
  | invokeChan cid key fn' =>
    exact chanInv_doInvoke c fn g cid key fn' true
      (fun h => hc (by rw [eventCid, h])) hinv
  | complete callId => exact chanInv_doComplete c fn g callId hinv
  | forget key =>
    obtain ⟨hfresh, i, call, ch, hi, ht, hw, hfn, huniq, hch, hcap, hd1, hd0, hbuf⟩ := hinv
    exact ⟨hfresh, i, call, ch, hi, ht, hw, hfn, huniq, hch, hcap, hd1, hd0, hbuf⟩

theorem chanInv_runG (c : Nat) (fn : V × Option E) (evs : List (Event V E)) :
    ∀ g : Group V E, chanInv c fn g → (∀ e ∈ evs, eventCid e ≠ some c) →
    chanInv c fn (runG g evs) := by
  induction evs with
  | nil => exact fun g h _ => h
  | cons e evs ih =>
    intro g h hev
    rw [runG_cons]
    exact ih _ (chanInv_step c fn g e (hev e (List.mem_cons_self _ _)) h)
      (fun e' he' => hev e' (List.mem_cons_of_mem _ he'))

theorem chanInv_init (c : Nat) (k : String) (fn : V × Option E) :
    chanInv c fn (stepG (emptyGroup V E) (.invokeChan c k fn)) := by
  show chanInv c fn (doInvoke (emptyGroup V E) c k fn true)
  rw [doInvoke_create (emptyGroup V E) c k fn true rfl]
  refine ⟨?_, 0, { key := k, creator := c, fn := fn, joiners := [], done := false },
    mkResultChan V E, ?_, ?_, ?_, rfl, ?_, ?_, rfl, ?_, ?_, ?_⟩
  · intro j hj
    have hj1 : (1 : Nat) ≤ j := hj
    simp only [emptyGroup, insertA, lookupA]
    rw [if_neg (by omega : j ≠ 0)]
  · show (0 : Nat) < 1
    omega
  · exact lookupA_insertA_self _ _ _
  · exact List.mem_cons_self _ _
  · intro j call' hlook hwc
    simp only [emptyGroup, insertA, lookupA] at hlook
    by_cases hj : j = 0
    · exact hj
    · rw [if_neg hj] at hlook
      exact absurd hlook (by simp)
  · exact lookupA_insertA_self _ _ _
  · intro hfalse
    exact absurd hfalse (by simp)
  · intro _
    rfl
  · intro r hr
    exact absurd hr (by simp [mkResultChan])

/-! ### Claim theorems: the DoChan result channel -/

/-- Claim C7: a `DoChan` caller's result channel has capacity at least 1
(delivery never blocks on the receiver), and across any continuation of the
run in which that caller makes no further invocation, at most one result is
ever in the channel — none before its call completes, exactly one once the
call is done, and anything published carries exactly the work function's
value and error. -/
theorem doChan_publishes_once (c : Nat) (k : String) (fn : V × Option E)
    (evs : List (Event V E)) (hevs : ∀ e ∈ evs, eventCid e ≠ some c) :
    ∃ (i : Nat) (call : Call V E) (ch : Chan V E),
      lookupA i (runG (emptyGroup V E) (.invokeChan c k fn :: evs)).tbl = some call ∧
      c ∈ waiters call ∧ call.fn = fn ∧
      lookupA c (runG (emptyGroup V E) (.invokeChan c k fn :: evs)).chans = some ch ∧
      1 ≤ ch.capacity ∧
      ch.buf.length ≤ 1 ∧
      (call.done = true → ch.buf.length = 1) ∧
      (call.done = false → ch.buf = []) ∧
      (∀ r ∈ ch.buf, r.val = fn.1 ∧ r.err = fn.2) := by
  rw [runG_cons]
  have h := chanInv_runG c fn evs _ (chanInv_init c k fn) hevs
  obtain ⟨hfresh, i, call, ch, hi, ht, hw, hfn, huniq, hch, hcap, hd1, hd0, hbuf⟩ := h
  refine ⟨i, call, ch, ht, hw, hfn, hch, by omega, ?_, hd1, hd0, hbuf⟩
  cases hd : call.done
  · rw [hd0 hd]
    simp
  · rw [hd1 hd]

/-- Witness for C7: caller 5 invokes `DoChan` on a fresh group and the call
then completes. -/
theorem doChan_publishes_once_witness :
    ∃ (i : Nat) (call : Call Nat String) (ch : Chan Nat String),
      lookupA i (runG (emptyGroup Nat String)
        (.invokeChan 5 "k" (42, none) :: [.complete 0])).tbl = some call ∧
      5 ∈ waiters call ∧ call.fn = (42, none) ∧
      lookupA 5 (runG (emptyGroup Nat String)
        (.invokeChan 5 "k" (42, none) :: [.complete 0])).chans = some ch ∧
      1 ≤ ch.capacity ∧
      ch.buf.length ≤ 1 ∧
      (call.done = true → ch.buf.length = 1) ∧
      (call.done = false → ch.buf = []) ∧
      (∀ r ∈ ch.buf, r.val = 42 ∧ r.err = none) :=
  doChan_publishes_once 5 "k" (42, none) [.complete 0] (by decide)

end Singleflightx
